import Mathlib

set_option maxHeartbeats 1000000

namespace HexGrid

/-- A hex grid in offset coordinates, the occupancy model owned by the
`HexGrid` class of `src/hex-grid.js`.  `W` and `H` are the content width and
height (`this.W`, `this.H`); `cell y x` is the numeric entry `grid[y][x]`
(`1` marks a filled cell, `0` an empty one).  The source allocates rows
`0..H+1` and columns `0..W+1`; the traversal bounds-checks before reading a
neighbor, so entries outside that rectangle are never consulted. -/
structure Grid where
  W : Nat
  H : Nat
  cell : Int → Int → Int

/-- One recorded perimeter edge, exactly the object
`{ x: nx, y: ny, dir: backDir }` pushed onto `this.perimeterEdges`:
`x`/`y` are the coordinates of the filled cell and `dir` is the side index
(0..5) of that cell which faces the discovering empty cell. -/
structure Edge where
  x : Int
  y : Int
  dir : Nat
  deriving DecidableEq, Repr

/-- The column-offset tables `this.dx` of the source: the outer index is the
row parity (`y % 2`), the inner index the direction 0..5. -/
def dx : List (List Int) := [[1, 0, -1, -1, -1, 0], [1, 1, 0, -1, 0, 1]]

/-- The row-offset tables `this.dy` of the source (identical for both
parities). -/
def dy : List (List Int) := [[0, 1, 1, 0, -1, -1], [0, 1, 1, 0, -1, -1]]

/-- Row parity `y % 2` used to select the offset table. -/
def parOf (y : Int) : Nat := (y % 2).toNat

/-- Table lookup `this.dx[par][d]`. -/
def dxAt (par d : Nat) : Int := (dx.getD par []).getD d 0

/-- Table lookup `this.dy[par][d]`. -/
def dyAt (par d : Nat) : Int := (dy.getD par []).getD d 0

/-- The neighbor of a cell `(y, x)` in direction `d`, as computed by the
traversal: `ny = y + dy[y % 2][d]`, `nx = x + dx[y % 2][d]`. -/
def nbr (p : Int × Int) (d : Nat) : Int × Int :=
  (p.1 + dyAt (parOf p.1) d, p.2 + dxAt (parOf p.1) d)

/-- The mutable traversal state of one `computePerimeter()` call:
`this.isVisited` (as the list of cells marked so far), the accumulated
`this.perimeterEdges`, and the running `totalCount`. -/
structure St where
  visited : List (Int × Int)
  edges : List Edge
  count : Nat

/-- The body of the `for (let d = 0; d < 6; d++)` loop inside `dfs`:
compute the neighbor, skip it when out of bounds, record an edge and bump
the count when it is filled, otherwise recurse into it (`go`). -/
def dfsBody (g : Grid) (go : Int → Int → St → St) (y x : Int) (t : St) (d : Nat) : St :=
  let ny := y + dyAt (parOf y) d
  let nx := x + dxAt (parOf y) d
  if ny < 0 ∨ nx < 0 ∨ ny > (g.H : Int) + 1 ∨ nx > (g.W : Int) + 1 then t
  else if g.cell ny nx = 1 then
    { t with edges := t.edges ++ [⟨nx, ny, (d + 3) % 6⟩], count := t.count + 1 }
  else go ny nx t

/-- The recursive `dfs(y, x)` of `computePerimeter`, made total by a fuel
argument that bounds the recursion depth.  A call returns immediately when
the cell is filled or already visited; otherwise it marks the cell visited
and runs the six-direction loop.  `computePerimeter` supplies more fuel
than there are cells, which the development proves is never exhausted. -/
def dfsAux (g : Grid) : Nat → Int → Int → St → St
  | 0, _, _, s => s
  | fuel + 1, y, x, s =>
    if g.cell y x = 1 ∨ (y, x) ∈ s.visited then s
    else
      (List.range 6).foldl (dfsBody g (dfsAux g fuel) y x)
        { s with visited := (y, x) :: s.visited }

/-- The traversal state produced by one `computePerimeter()` call:
`isVisited` reset to empty, `perimeterEdges` reset to `[]`, `totalCount`
reset to 0, then `dfs(0, 0)`. -/
def cpState (g : Grid) : St :=
  dfsAux g ((g.H + 2) * (g.W + 2) + 1) 0 0 ⟨[], [], 0⟩

/-- `computePerimeter()`: returns `totalCount` together with the
accumulated `this.perimeterEdges` list (which the source exposes as a
field). -/
def computePerimeter (g : Grid) : Nat × List Edge :=
  ((cpState g).count, (cpState g).edges)

/-- `initEmptyGrid(W, H)`: store the dimensions and allocate the
`(H+2) × (W+2)` matrix with every entry `0`. -/
def initEmptyGrid (W H : Nat) : Grid :=
  { W := W, H := H, cell := fun _ _ => 0 }

/-- The grid built by `loadFromInput()` after parsing: a fresh all-zero
`(H+2) × (W+2)` matrix whose content entries `(i, j)` with `1 ≤ i ≤ H`,
`1 ≤ j ≤ W` are set to `rowData[j-1] || 0`, where `rows` holds the parsed
numeric rows (missing entries default to 0, as `|| 0` does for
`undefined`). -/
def loadFromInput (W H : Nat) (rows : List (List Int)) : Grid :=
  { W := W, H := H,
    cell := fun y x =>
      if 1 ≤ y ∧ y ≤ (H : Int) ∧ 1 ≤ x ∧ x ≤ (W : Int) then
        (rows.getD (y - 1).toNat []).getD (x - 1).toNat 0
      else 0 }

/-- The grid mutation performed by `handleClick` once a content cell
`bestPos = (x, y)` has been picked:
`this.grid[bestPos.y][bestPos.x] = 1 - this.grid[bestPos.y][bestPos.x]`. -/
def handleClick (g : Grid) (y x : Int) : Grid :=
  { g with cell := fun y' x' => if y' = y ∧ x' = x then 1 - g.cell y x else g.cell y' x' }

/-- The full mutable state of the `HexGrid` object that the traversal
touches: the grid plus the stale `isVisited` and `perimeterEdges` left over
from a previous trace. -/
structure HexGridState where
  grid : Grid
  isVisited : List (Int × Int)
  perimeterEdges : List Edge

/-- `computePerimeter()` acting on the full object state: it overwrites
`isVisited` and `perimeterEdges` from scratch (lines 147-148 of the source)
and leaves the grid untouched. -/
def computePerimeterS (t : HexGridState) : Nat × HexGridState :=
  let s := cpState t.grid
  (s.count, { t with isVisited := s.visited, perimeterEdges := s.edges })

/-- A coordinate lies in the allocated `(H+2) × (W+2)` rectangle (the
positive form of the bounds test `ny < 0 || nx < 0 || ny > H+1 || nx > W+1`
of the source). -/
def inGrid (g : Grid) (p : Int × Int) : Prop :=
  0 ≤ p.1 ∧ 0 ≤ p.2 ∧ p.1 ≤ (g.H : Int) + 1 ∧ p.2 ≤ (g.W : Int) + 1

instance (g : Grid) (p : Int × Int) : Decidable (inGrid g p) := by
  unfold inGrid; infer_instance

/-- A cell is open for the flood fill: inside the allocated rectangle and
not filled. -/
def openCell (g : Grid) (p : Int × Int) : Prop :=
  inGrid g p ∧ g.cell p.1 p.2 ≠ 1

/-- One flood-fill step: both endpoints are open cells and `q` is one of
the six neighbors of `p` under the row-parity tables. -/
def adjStep (g : Grid) (p q : Int × Int) : Prop :=
  openCell g p ∧ openCell g q ∧ ∃ d, d < 6 ∧ nbr p d = q

/-- A cell is reachable from the fixed seed `(0, 0)` through open cells
under the row-parity adjacency. -/
def reaches (g : Grid) (p : Int × Int) : Prop :=
  Relation.ReflTransGen (adjStep g) (0, 0) p

/-- The edge recorded for the pair (empty cell `p`, direction `d`): the
filled neighbor's coordinates with side index `(d + 3) % 6`. -/
def mkEdge (p : Int × Int) (d : Nat) : Edge :=
  ⟨(nbr p d).2, (nbr p d).1, (d + 3) % 6⟩

/-- The list of edges the six-direction loop of `dfs` emits from cell `p`
while scanning the directions in `l`: one edge per direction whose neighbor
is in bounds and filled. -/
def emPart (g : Grid) (p : Int × Int) (l : List Nat) : List Edge :=
  (l.filter (fun d => decide (inGrid g (nbr p d) ∧ g.cell (nbr p d).1 (nbr p d).2 = 1))).map
    (mkEdge p)

/-- All edges the `dfs` frame at `p` emits (directions 0..5). -/
def emOf (g : Grid) (p : Int × Int) : List Edge :=
  emPart g p (List.range 6)

/-- The border-ring invariant of the data model: every allocated cell on
row 0, row `H+1`, column 0 or column `W+1` is empty (`0`). -/
def borderEmpty (g : Grid) : Prop :=
  ∀ y x : Int, inGrid g (y, x) →
    (y = 0 ∨ y = (g.H : Int) + 1 ∨ x = 0 ∨ x = (g.W : Int) + 1) →
    g.cell y x = 0

/-- The specification pair predicate of claim C1: `e` is an empty cell
reachable from `(0, 0)` through empty cells, and its neighbor in direction
`d` is an in-bounds filled cell. -/
def PairP (g : Grid) (e : Int × Int) (d : Nat) : Prop :=
  reaches g e ∧ g.cell e.1 e.2 ≠ 1 ∧
    inGrid g (nbr e d) ∧ g.cell (nbr e d).1 (nbr e d).2 = 1

/-- The finite set of allocated coordinates. -/
def boxF (g : Grid) : Finset (Int × Int) :=
  Finset.Icc 0 ((g.H : Int) + 1) ×ˢ Finset.Icc 0 ((g.W : Int) + 1)

/-- Number of allocated cells not yet visited (the fuel budget of the
traversal). -/
def unv (g : Grid) (s : St) : Nat :=
  ((boxF g).filter (fun p => p ∉ s.visited)).card

/-- Multiset of all edges emitted by the frames of the cells in `L`. -/
def emsMS (g : Grid) (L : List (Int × Int)) : Multiset Edge :=
  (L.map (fun p => ((emOf g p : List Edge) : Multiset Edge))).sum

/-- Total number of edges emitted by the frames of the cells in `L`. -/
def emsLen (g : Grid) (L : List (Int × Int)) : Nat :=
  (L.map (fun p => (emOf g p).length)).sum

/-- The even-row offset table of the specification, as pairs
(Δcol, Δrow) for directions 0..5. -/
def specEvenOffsets : List (Int × Int) :=
  [(1, 0), (0, 1), (-1, 1), (-1, 0), (-1, -1), (0, -1)]

/-- The odd-row offset table of the specification, as pairs
(Δcol, Δrow) for directions 0..5. -/
def specOddOffsets : List (Int × Int) :=
  [(1, 0), (1, 1), (0, 1), (-1, 0), (0, -1), (1, -1)]

/-- Well-formedness of a traversal state: the visited list has no
duplicates and only holds in-bounds empty cells. -/
def Wf (g : Grid) (s : St) : Prop :=
  s.visited.Nodup ∧ ∀ p ∈ s.visited, inGrid g p ∧ g.cell p.1 p.2 ≠ 1

/-- Number of allocated cells not in the visited list `V`. -/
def unvL (g : Grid) (V : List (Int × Int)) : Nat :=
  ((boxF g).filter (fun p => p ∉ V)).card

lemma parOf_eq_zero {y : Int} (h : y % 2 = 0) : parOf y = 0 := by
  unfold parOf; omega

lemma parOf_eq_one {y : Int} (h : y % 2 = 1) : parOf y = 1 := by
  unfold parOf; omega

lemma nbr_symm (p : Int × Int) (d : Nat) (hd : d < 6) :
    nbr (nbr p d) ((d + 3) % 6) = p := by
  obtain ⟨y, x⟩ := p
  rcases (by omega : y % 2 = 0 ∨ y % 2 = 1) with h | h
  · have q0 : parOf y = 0 := parOf_eq_zero h
    have qp : parOf (y + 1) = 1 := parOf_eq_one (by omega)
    have qm : parOf (y + -1) = 1 := parOf_eq_one (by omega)
    have qm' : parOf (y - 1) = 1 := parOf_eq_one (by omega)
    interval_cases d <;> simp [nbr, q0, qp, qm, qm', dxAt, dyAt, dx, dy]
  · have q0 : parOf y = 1 := parOf_eq_one h
    have qp : parOf (y + 1) = 0 := parOf_eq_zero (by omega)
    have qm : parOf (y + -1) = 0 := parOf_eq_zero (by omega)
    have qm' : parOf (y - 1) = 0 := parOf_eq_zero (by omega)
    interval_cases d <;> simp [nbr, q0, qp, qm, qm', dxAt, dyAt, dx, dy]

lemma nbr_inj (p : Int × Int) {d d' : Nat} (hd : d < 6) (hd' : d' < 6)
    (h : nbr p d = nbr p d') : d = d' := by
  obtain ⟨y, x⟩ := p
  rcases (by omega : y % 2 = 0 ∨ y % 2 = 1) with hp | hp
  · have q0 : parOf y = 0 := parOf_eq_zero hp
    interval_cases d <;> interval_cases d' <;>
      simp [nbr, q0, dxAt, dyAt, dx, dy] at h ⊢ <;> omega
  · have q0 : parOf y = 1 := parOf_eq_one hp
    interval_cases d <;> interval_cases d' <;>
      simp [nbr, q0, dxAt, dyAt, dx, dy] at h ⊢ <;> omega

lemma nbr_ne_self (p : Int × Int) {d : Nat} (hd : d < 6) : nbr p d ≠ p := by
  obtain ⟨y, x⟩ := p
  rcases (by omega : y % 2 = 0 ∨ y % 2 = 1) with hp | hp
  · have q0 : parOf y = 0 := parOf_eq_zero hp
    interval_cases d <;> simp [nbr, q0, dxAt, dyAt, dx, dy] <;> omega
  · have q0 : parOf y = 1 := parOf_eq_one hp
    interval_cases d <;> simp [nbr, q0, dxAt, dyAt, dx, dy] <;> omega

lemma nbr_close (p : Int × Int) {d : Nat} (hd : d < 6) :
    (nbr p d).1 ≤ p.1 + 1 ∧ p.1 - 1 ≤ (nbr p d).1 ∧
      (nbr p d).2 ≤ p.2 + 1 ∧ p.2 - 1 ≤ (nbr p d).2 := by
  obtain ⟨y, x⟩ := p
  rcases (by omega : y % 2 = 0 ∨ y % 2 = 1) with hp | hp
  · have q0 : parOf y = 0 := parOf_eq_zero hp
    interval_cases d <;> simp [nbr, q0, dxAt, dyAt, dx, dy] <;> omega
  · have q0 : parOf y = 1 := parOf_eq_one hp
    interval_cases d <;> simp [nbr, q0, dxAt, dyAt, dx, dy] <;> omega

lemma step_right (y x : Int) : nbr (y, x) 0 = (y, x + 1) := by
  rcases (by omega : y % 2 = 0 ∨ y % 2 = 1) with hp | hp <;>
    simp [nbr, parOf_eq_zero, parOf_eq_one, hp, dxAt, dyAt, dx, dy]

lemma step_left (y x : Int) : nbr (y, x) 3 = (y, x - 1) := by
  rcases (by omega : y % 2 = 0 ∨ y % 2 = 1) with hp | hp <;>
    simp [nbr, parOf_eq_zero, parOf_eq_one, hp, dxAt, dyAt, dx, dy] <;> omega

lemma step_down (y x : Int) : ∃ d, d < 6 ∧ nbr (y, x) d = (y + 1, x) := by
  rcases (by omega : y % 2 = 0 ∨ y % 2 = 1) with hp | hp
  · exact ⟨1, by omega, by simp [nbr, parOf_eq_zero hp, dxAt, dyAt, dx, dy]⟩
  · exact ⟨2, by omega, by simp [nbr, parOf_eq_one hp, dxAt, dyAt, dx, dy]⟩

lemma oob_iff (g : Grid) (p : Int × Int) :
    (p.1 < 0 ∨ p.2 < 0 ∨ p.1 > (g.H : Int) + 1 ∨ p.2 > (g.W : Int) + 1) ↔
      ¬ inGrid g p := by
  unfold inGrid; omega

lemma mem_boxF {g : Grid} {p : Int × Int} : p ∈ boxF g ↔ inGrid g p := by
  simp only [boxF, inGrid, Finset.mem_product, Finset.mem_Icc]
  omega

lemma unvL_mono {g : Grid} {V V' : List (Int × Int)}
    (h : ∀ q, q ∈ V → q ∈ V') : unvL g V' ≤ unvL g V := by
  apply Finset.card_le_card
  intro q hq
  simp only [Finset.mem_filter] at hq ⊢
  exact ⟨hq.1, fun hm => hq.2 (h q hm)⟩

lemma unvL_cons_lt {g : Grid} {V : List (Int × Int)} {p : Int × Int}
    (hin : inGrid g p) (hnm : p ∉ V) : unvL g (p :: V) < unvL g V := by
  have hmem : p ∈ (boxF g).filter (fun q => q ∉ V) := by
    simp only [Finset.mem_filter]
    exact ⟨mem_boxF.mpr hin, hnm⟩
  have hset : (boxF g).filter (fun q => q ∉ p :: V) =
      ((boxF g).filter (fun q => q ∉ V)).erase p := by
    ext q
    simp only [Finset.mem_erase, Finset.mem_filter, List.mem_cons]
    tauto
  have hpos : 0 < ((boxF g).filter (fun q => q ∉ V)).card :=
    Finset.card_pos.mpr ⟨p, hmem⟩
  unfold unvL
  rw [hset, Finset.card_erase_of_mem hmem]
  omega

lemma emPart_nil (g : Grid) (p : Int × Int) : emPart g p [] = [] := rfl

lemma emPart_cons_pos {g : Grid} {p : Int × Int} {d : Nat} (l : List Nat)
    (h : inGrid g (nbr p d) ∧ g.cell (nbr p d).1 (nbr p d).2 = 1) :
    emPart g p (d :: l) = mkEdge p d :: emPart g p l := by
  unfold emPart
  rw [List.filter_cons, if_pos (by simpa using h)]
  rfl

lemma emPart_cons_neg {g : Grid} {p : Int × Int} {d : Nat} (l : List Nat)
    (h : ¬(inGrid g (nbr p d) ∧ g.cell (nbr p d).1 (nbr p d).2 = 1)) :
    emPart g p (d :: l) = emPart g p l := by
  unfold emPart
  rw [List.filter_cons, if_neg (by simpa using h)]

lemma emsMS_nil (g : Grid) : emsMS g [] = 0 := rfl

lemma emsMS_append (g : Grid) (L L' : List (Int × Int)) :
    emsMS g (L ++ L') = emsMS g L + emsMS g L' := by
  simp [emsMS]

lemma emsMS_cons (g : Grid) (p : Int × Int) (L : List (Int × Int)) :
    emsMS g (p :: L) = (emOf g p : Multiset Edge) + emsMS g L := by
  simp [emsMS]

lemma emsLen_nil (g : Grid) : emsLen g [] = 0 := rfl

lemma emsLen_append (g : Grid) (L L' : List (Int × Int)) :
    emsLen g (L ++ L') = emsLen g L + emsLen g L' := by
  simp [emsLen]

lemma emsLen_cons (g : Grid) (p : Int × Int) (L : List (Int × Int)) :
    emsLen g (p :: L) = (emOf g p).length + emsLen g L := by
  simp [emsLen]

/-- The loop body in terms of `inGrid`, `nbr` and `mkEdge`. -/
lemma dfsBody_eq (g : Grid) (go : Int → Int → St → St) (y x : Int) (t : St) (d : Nat) :
    dfsBody g go y x t d =
      if inGrid g (nbr (y, x) d) then
        if g.cell (nbr (y, x) d).1 (nbr (y, x) d).2 = 1 then
          { t with edges := t.edges ++ [mkEdge (y, x) d], count := t.count + 1 }
        else go (nbr (y, x) d).1 (nbr (y, x) d).2 t
      else t := by
  unfold dfsBody
  by_cases hraw : y + dyAt (parOf y) d < 0 ∨ x + dxAt (parOf y) d < 0 ∨
      y + dyAt (parOf y) d > (g.H : Int) + 1 ∨ x + dxAt (parOf y) d > (g.W : Int) + 1
  · rw [if_pos hraw, if_neg (fun hin => (oob_iff g (nbr (y, x) d)).mp hraw hin)]
  · rw [if_neg hraw, if_pos (show inGrid g (nbr (y, x) d) by
      by_contra hn; exact hraw ((oob_iff g (nbr (y, x) d)).mpr hn))]
    rfl

lemma dfsAux_succ (g : Grid) (fuel : Nat) (y x : Int) (s : St) :
    dfsAux g (fuel + 1) y x s =
      if g.cell y x = 1 ∨ (y, x) ∈ s.visited then s
      else
        (List.range 6).foldl (dfsBody g (dfsAux g fuel) y x)
          { s with visited := (y, x) :: s.visited } := rfl

/-- Post-conditions of one `dfs` call with sufficient fuel, phrased over the
cells `new` that the call adds to the visited list: the new cells are fresh,
distinct, in bounds and empty; the edges and the count grow by exactly the
per-cell emissions of the new cells; every new cell has all its open
neighbors visited on return; the called cell itself ends up visited when it
is empty; and every new cell is connected to the called cell through open
cells. -/
def DfsPost (g : Grid) (y x : Int) (s s' : St) : Prop :=
  ∃ new : List (Int × Int),
    s'.visited = new ++ s.visited ∧
    new.Nodup ∧
    (∀ p ∈ new, p ∉ s.visited) ∧
    (∀ p ∈ new, inGrid g p ∧ g.cell p.1 p.2 ≠ 1) ∧
    (s'.edges : Multiset Edge) = (s.edges : Multiset Edge) + emsMS g new ∧
    s'.count = s.count + emsLen g new ∧
    (∀ p ∈ new, ∀ d, d < 6 → openCell g (nbr p d) → nbr p d ∈ s'.visited) ∧
    (g.cell y x ≠ 1 → (y, x) ∈ s'.visited) ∧
    (∀ p ∈ new, Relation.ReflTransGen (adjStep g) (y, x) p)

/-- Post-conditions of the six-direction loop of one `dfs` frame at
`(y, x)`, scanning the directions in `l`: like `DfsPost` but with the
frame's own emissions `emPart g (y, x) l` accounted separately, and with
the guarantee that every open neighbor in a scanned direction is visited
on exit. -/
def LoopPost (g : Grid) (y x : Int) (l : List Nat) (t t' : St) : Prop :=
  ∃ new : List (Int × Int),
    t'.visited = new ++ t.visited ∧
    new.Nodup ∧
    (∀ p ∈ new, p ∉ t.visited) ∧
    (∀ p ∈ new, inGrid g p ∧ g.cell p.1 p.2 ≠ 1) ∧
    (t'.edges : Multiset Edge) =
      (t.edges : Multiset Edge) + emsMS g new + (emPart g (y, x) l : Multiset Edge) ∧
    t'.count = t.count + emsLen g new + (emPart g (y, x) l).length ∧
    (∀ p ∈ new, ∀ d, d < 6 → openCell g (nbr p d) → nbr p d ∈ t'.visited) ∧
    (∀ d ∈ l, openCell g (nbr (y, x) d) → nbr (y, x) d ∈ t'.visited) ∧
    (∀ p ∈ new, Relation.ReflTransGen (adjStep g) (y, x) p)

lemma dfs_loop (g : Grid) (fuel : Nat)
    (IH : ∀ (y x : Int) (s : St), Wf g s → inGrid g (y, x) →
      unvL g s.visited < fuel → DfsPost g y x s (dfsAux g fuel y x s)) :
    ∀ (l : List Nat) (y x : Int) (t : St), (∀ d ∈ l, d < 6) → Wf g t →
      openCell g (y, x) → (y, x) ∈ t.visited → unvL g t.visited < fuel →
      LoopPost g y x l t (l.foldl (dfsBody g (dfsAux g fuel) y x) t) := by
  intro l
  induction l with
  | nil =>
    intro y x t hl hwf hopen hmem hfuel
    refine ⟨[], by simp, by simp, by simp, by simp, ?_, ?_, by simp, by simp, by simp⟩
    · simp [emsMS_nil, emPart_nil]
    · simp [emsLen_nil, emPart_nil]
  | cons d ds ihl =>
    intro y x t hl hwf hopen hmem hfuel
    have hd6 : d < 6 := hl d (by simp)
    have hds : ∀ d' ∈ ds, d' < 6 := fun d' h => hl d' (by simp [h])
    rw [List.foldl_cons, dfsBody_eq]
    by_cases hin : inGrid g (nbr (y, x) d)
    · rw [if_pos hin]
      by_cases hfill : g.cell (nbr (y, x) d).1 (nbr (y, x) d).2 = 1
      · rw [if_pos hfill]
        obtain ⟨new, hv, hnd, hfr, hop, hed, hct, hcl, hcov, hrtg⟩ :=
          ihl y x { t with edges := t.edges ++ [mkEdge (y, x) d], count := t.count + 1 }
            hds hwf hopen hmem hfuel
        refine ⟨new, hv, hnd, hfr, hop, ?_, ?_, hcl, ?_, hrtg⟩
        · rw [hed, emPart_cons_pos ds ⟨hin, hfill⟩]
          have h1 : ((t.edges ++ [mkEdge (y, x) d] : List Edge) : Multiset Edge) =
              (t.edges : Multiset Edge) + {mkEdge (y, x) d} := rfl
          have h2 : ((mkEdge (y, x) d :: emPart g (y, x) ds : List Edge) : Multiset Edge) =
              {mkEdge (y, x) d} + (emPart g (y, x) ds : Multiset Edge) := rfl
          rw [h1, h2]
          abel
        · rw [hct, emPart_cons_pos ds ⟨hin, hfill⟩]
          simp only [List.length_cons]
          omega
        · intro d' hd' hno
          rcases List.mem_cons.mp hd' with rfl | hd'
          · exact absurd hfill hno.2
          · exact hcov d' hd' hno
      · rw [if_neg hfill]
        obtain ⟨newR, hvR, hndR, hfrR, hopR, hedR, hctR, hclR, hselfR, hrtgR⟩ :=
          IH (nbr (y, x) d).1 (nbr (y, x) d).2 t hwf hin hfuel
        have hsupR : ∀ q, q ∈ t.visited →
            q ∈ (dfsAux g fuel (nbr (y, x) d).1 (nbr (y, x) d).2 t).visited := by
          intro q hq; rw [hvR]; exact List.mem_append_right _ hq
        have hwf1 : Wf g (dfsAux g fuel (nbr (y, x) d).1 (nbr (y, x) d).2 t) := by
          constructor
          · rw [hvR]
            exact hndR.append hwf.1 (fun p hp hp' => hfrR p hp hp')
          · intro p hp
            rw [hvR] at hp
            rcases List.mem_append.mp hp with hp | hp
            · exact hopR p hp
            · exact hwf.2 p hp
        have hfuel1 : unvL g (dfsAux g fuel (nbr (y, x) d).1 (nbr (y, x) d).2 t).visited < fuel :=
          lt_of_le_of_lt (unvL_mono hsupR) hfuel
        obtain ⟨newI, hvI, hndI, hfrI, hopI, hedI, hctI, hclI, hcovI, hrtgI⟩ :=
          ihl y x (dfsAux g fuel (nbr (y, x) d).1 (nbr (y, x) d).2 t)
            hds hwf1 hopen (hsupR _ hmem) hfuel1
        have hstep : adjStep g (y, x) (nbr (y, x) d) :=
          ⟨hopen, ⟨hin, hfill⟩, d, hd6, rfl⟩
        have hsupI : ∀ q, q ∈ (dfsAux g fuel (nbr (y, x) d).1 (nbr (y, x) d).2 t).visited →
            q ∈ (ds.foldl (dfsBody g (dfsAux g fuel) y x)
              (dfsAux g fuel (nbr (y, x) d).1 (nbr (y, x) d).2 t)).visited := by
          intro q hq; rw [hvI]; exact List.mem_append_right _ hq
        refine ⟨newI ++ newR, ?_, ?_, ?_, ?_, ?_, ?_, ?_, ?_, ?_⟩
        · rw [hvI, hvR, List.append_assoc]
        · refine hndI.append hndR (fun p hp hp' => ?_)
          exact hfrI p hp (by rw [hvR]; exact List.mem_append_left _ hp')
        · intro p hp
          rcases List.mem_append.mp hp with hp | hp
          · exact fun hm => hfrI p hp (hsupR _ hm)
          · exact hfrR p hp
        · intro p hp
          rcases List.mem_append.mp hp with hp | hp
          · exact hopI p hp
          · exact hopR p hp
        · rw [hedI, hedR, emPart_cons_neg ds (fun hc => hfill hc.2), emsMS_append]
          abel
        · rw [hctI, hctR, emPart_cons_neg ds (fun hc => hfill hc.2), emsLen_append]
          omega
        · intro p hp d' hd' hno
          rcases List.mem_append.mp hp with hp | hp
          · exact hclI p hp d' hd' hno
          · exact hsupI _ (hclR p hp d' hd' hno)
        · intro d' hd' hno
          rcases List.mem_cons.mp hd' with rfl | hd'
          · exact hsupI _ (hselfR hno.2)
          · exact hcovI d' hd' hno
        · intro p hp
          rcases List.mem_append.mp hp with hp | hp
          · exact hrtgI p hp
          · exact Relation.ReflTransGen.head hstep (hrtgR p hp)
    · rw [if_neg hin]
      obtain ⟨new, hv, hnd, hfr, hop, hed, hct, hcl, hcov, hrtg⟩ :=
        ihl y x t hds hwf hopen hmem hfuel
      refine ⟨new, hv, hnd, hfr, hop, ?_, ?_, hcl, ?_, hrtg⟩
      · rw [hed, emPart_cons_neg ds (fun hc => hin hc.1)]
      · rw [hct, emPart_cons_neg ds (fun hc => hin hc.1)]
      · intro d' hd' hno
        rcases List.mem_cons.mp hd' with rfl | hd'
        · exact absurd hno.1 hin
        · exact hcov d' hd' hno

/-- Main invariant of one `dfs` call, by induction on the fuel: the fuel
bound `unvL` (unvisited in-bounds cells) guarantees the fuel is never
exhausted. -/
lemma dfs_post (g : Grid) : ∀ (fuel : Nat) (y x : Int) (s : St),
    Wf g s → inGrid g (y, x) → unvL g s.visited < fuel →
    DfsPost g y x s (dfsAux g fuel y x s) := by
  intro fuel
  induction fuel with
  | zero => intro y x s _ _ hfuel; omega
  | succ fuel ih =>
    intro y x s hwf hin hfuel
    rw [dfsAux_succ]
    by_cases hguard : g.cell y x = 1 ∨ (y, x) ∈ s.visited
    · rw [if_pos hguard]
      refine ⟨[], by simp, by simp, by simp, by simp, ?_, ?_, by simp, ?_, by simp⟩
      · simp [emsMS_nil]
      · simp [emsLen_nil]
      · intro hc
        rcases hguard with h | h
        · exact absurd h hc
        · exact h
    · rw [if_neg hguard]
      push_neg at hguard
      obtain ⟨hc, hnm⟩ := hguard
      have hwf1 : Wf g { s with visited := (y, x) :: s.visited } := by
        constructor
        · exact List.nodup_cons.mpr ⟨hnm, hwf.1⟩
        · intro p hp
          rcases List.mem_cons.mp hp with rfl | hp
          · exact ⟨hin, hc⟩
          · exact hwf.2 p hp
      have hfuel1 : unvL g ((y, x) :: s.visited) < fuel := by
        have := unvL_cons_lt hin hnm
        omega
      obtain ⟨new, hv, hnd, hfr, hop, hed, hct, hcl, hcov, hrtg⟩ :=
        dfs_loop g fuel ih (List.range 6) y x { s with visited := (y, x) :: s.visited }
          (fun d hd => List.mem_range.mp hd) hwf1 ⟨hin, hc⟩ (by simp) hfuel1
      have hse : ({ s with visited := (y, x) :: s.visited } : St).edges = s.edges := rfl
      have hsc : ({ s with visited := (y, x) :: s.visited } : St).count = s.count := rfl
      refine ⟨new ++ [(y, x)], ?_, ?_, ?_, ?_, ?_, ?_, ?_, ?_, ?_⟩
      · rw [hv]; simp
      · refine hnd.append (List.nodup_singleton _) ?_
        intro p hp hp'
        rcases List.mem_singleton.mp hp' with rfl
        exact hfr _ hp (by simp)
      · intro p hp
        rcases List.mem_append.mp hp with hp | hp
        · exact fun hm => hfr p hp (List.mem_cons_of_mem _ hm)
        · rcases List.mem_singleton.mp hp with rfl
          exact hnm
      · intro p hp
        rcases List.mem_append.mp hp with hp | hp
        · exact hop p hp
        · rcases List.mem_singleton.mp hp with rfl
          exact ⟨hin, hc⟩
      · rw [hed, hse, emsMS_append]
        have h1 : emsMS g [(y, x)] = (emOf g (y, x) : Multiset Edge) := by
          simp [emsMS]
        rw [h1]
        have h2 : (emOf g (y, x) : Multiset Edge) =
            (emPart g (y, x) (List.range 6) : Multiset Edge) := rfl
        rw [h2]
        abel
      · rw [hct, hsc, emsLen_append]
        have h1 : emsLen g [(y, x)] = (emOf g (y, x)).length := by
          simp [emsLen]
        have h2 : (emOf g (y, x)).length = (emPart g (y, x) (List.range 6)).length := rfl
        rw [h1, h2]
        omega
      · intro p hp d hd hno
        rcases List.mem_append.mp hp with hp | hp
        · exact hcl p hp d hd hno
        · rcases List.mem_singleton.mp hp with rfl
          exact hcov d (List.mem_range.mpr hd) hno
      · intro _
        rw [hv]
        simp
      · intro p hp
        rcases List.mem_append.mp hp with hp | hp
        · exact hrtg p hp
        · rcases List.mem_singleton.mp hp with rfl
          exact Relation.ReflTransGen.refl

lemma unvL_nil (g : Grid) : unvL g [] = (g.H + 2) * (g.W + 2) := by
  unfold unvL
  rw [Finset.filter_true_of_mem (fun p _ => List.not_mem_nil p)]
  unfold boxF
  rw [Finset.card_product, Int.card_Icc, Int.card_Icc]
  have h1 : ((g.H : Int) + 1 + 1 - 0).toNat = g.H + 2 := by omega
  have h2 : ((g.W : Int) + 1 + 1 - 0).toNat = g.W + 2 := by omega
  rw [h1, h2]

lemma inGrid_origin (g : Grid) : inGrid g ((0 : Int), (0 : Int)) := by
  unfold inGrid
  refine ⟨le_refl 0, le_refl 0, ?_, ?_⟩ <;> positivity

/-- The main invariant instantiated at the top-level `dfs(0, 0)` call of
`computePerimeter`. -/
lemma cp_post (g : Grid) : DfsPost g 0 0 ⟨[], [], 0⟩ (cpState g) := by
  apply dfs_post
  · exact ⟨List.nodup_nil, fun p hp => absurd hp (List.not_mem_nil p)⟩
  · exact inGrid_origin g
  · rw [unvL_nil]; omega

lemma cp_visited_nodup (g : Grid) : (cpState g).visited.Nodup := by
  obtain ⟨new, hv, hnd, _, _, _, _, _, _, _⟩ := cp_post g
  rw [List.append_nil] at hv
  rw [hv]
  exact hnd

lemma cp_visited_open (g : Grid) :
    ∀ p ∈ (cpState g).visited, inGrid g p ∧ g.cell p.1 p.2 ≠ 1 := by
  obtain ⟨new, hv, _, _, hop, _, _, _, _, _⟩ := cp_post g
  rw [List.append_nil] at hv
  rw [hv]
  exact hop

lemma cp_edges_ms (g : Grid) :
    ((cpState g).edges : Multiset Edge) = emsMS g (cpState g).visited := by
  obtain ⟨new, hv, _, _, _, hed, _, _, _, _⟩ := cp_post g
  rw [List.append_nil] at hv
  rw [hv, hed]
  simp

lemma cp_count_emsLen (g : Grid) : (cpState g).count = emsLen g (cpState g).visited := by
  obtain ⟨new, hv, _, _, _, _, hct, _, _, _⟩ := cp_post g
  rw [List.append_nil] at hv
  rw [hv, hct]
  simp

lemma cp_visited_closed (g : Grid) :
    ∀ p ∈ (cpState g).visited, ∀ d, d < 6 → openCell g (nbr p d) →
      nbr p d ∈ (cpState g).visited := by
  obtain ⟨new, hv, _, _, _, _, _, hcl, _, _⟩ := cp_post g
  rw [List.append_nil] at hv
  intro p hp d hd hno
  rw [hv] at hp
  exact hcl p hp d hd hno

lemma cp_visited_origin (g : Grid) (h0 : g.cell 0 0 ≠ 1) :
    ((0 : Int), (0 : Int)) ∈ (cpState g).visited := by
  obtain ⟨new, hv, _, _, _, _, _, _, hself, _⟩ := cp_post g
  exact hself h0

lemma cp_visited_reaches (g : Grid) : ∀ p ∈ (cpState g).visited, reaches g p := by
  obtain ⟨new, hv, _, _, _, _, _, _, _, hrtg⟩ := cp_post g
  rw [List.append_nil] at hv
  rw [hv]
  exact hrtg

/-- The visited set of the traversal is exactly the set of cells reachable
from `(0, 0)` through open cells (when the seed is empty). -/
lemma mem_visited_iff (g : Grid) (h0 : g.cell 0 0 ≠ 1) (p : Int × Int) :
    p ∈ (cpState g).visited ↔ reaches g p := by
  constructor
  · exact cp_visited_reaches g p
  · intro hr
    induction hr with
    | refl => exact cp_visited_origin g h0
    | tail h1 h2 ih =>
      obtain ⟨_, hopen_c, d, hd, hnbr⟩ := h2
      rw [← hnbr] at hopen_c ⊢
      exact cp_visited_closed g _ ih d hd hopen_c

lemma mem_emOf {g : Grid} {p : Int × Int} {ε : Edge} :
    ε ∈ emOf g p ↔ ∃ d, d < 6 ∧ inGrid g (nbr p d) ∧
      g.cell (nbr p d).1 (nbr p d).2 = 1 ∧ ε = mkEdge p d := by
  unfold emOf emPart
  simp only [List.mem_map, List.mem_filter, List.mem_range, decide_eq_true_eq]
  constructor
  · rintro ⟨d, ⟨hd, hcond⟩, rfl⟩
    exact ⟨d, hd, hcond.1, hcond.2, rfl⟩
  · rintro ⟨d, hd, hin, hfill, rfl⟩
    exact ⟨d, ⟨hd, hin, hfill⟩, rfl⟩

lemma emOf_nodup (g : Grid) (p : Int × Int) : (emOf g p).Nodup := by
  unfold emOf emPart
  refine List.Nodup.map_on ?_ ((List.nodup_range 6).filter _)
  intro d hd d' hd' heq
  have h1 : d < 6 := List.mem_range.mp (List.mem_of_mem_filter hd)
  have h2 : d' < 6 := List.mem_range.mp (List.mem_of_mem_filter hd')
  have h3 := congrArg Edge.dir heq
  simp only [mkEdge] at h3
  omega

lemma emOf_source {g : Grid} {p : Int × Int} {ε : Edge} (h : ε ∈ emOf g p) :
    ε.dir < 6 ∧ p = nbr (ε.y, ε.x) ε.dir ∧
      inGrid g (ε.y, ε.x) ∧ g.cell ε.y ε.x = 1 := by
  obtain ⟨d, hd, hin, hfill, rfl⟩ := mem_emOf.mp h
  refine ⟨by simp [mkEdge]; omega, ?_, ?_, ?_⟩
  · show p = nbr ((nbr p d).1, (nbr p d).2) ((d + 3) % 6)
    rw [Prod.mk.eta]
    exact (nbr_symm p d hd).symm
  · show inGrid g ((nbr p d).1, (nbr p d).2)
    rw [Prod.mk.eta]
    exact hin
  · exact hfill

lemma mem_emsMS {g : Grid} {L : List (Int × Int)} {ε : Edge} :
    ε ∈ emsMS g L ↔ ∃ p ∈ L, ε ∈ emOf g p := by
  induction L with
  | nil => simp [emsMS]
  | cons a L ihL =>
    rw [emsMS_cons]
    simp only [Multiset.mem_add, Multiset.mem_coe, List.mem_cons]
    constructor
    · rintro (h | h)
      · exact ⟨a, Or.inl rfl, h⟩
      · obtain ⟨p, hp, hm⟩ := ihL.mp h
        exact ⟨p, Or.inr hp, hm⟩
    · rintro ⟨p, rfl | hp, hm⟩
      · exact Or.inl hm
      · exact Or.inr (ihL.mpr ⟨p, hp, hm⟩)

lemma count_emsMS (g : Grid) (L : List (Int × Int)) (ε : Edge) :
    (emsMS g L).count ε = (L.map (fun p => (emOf g p).count ε)).sum := by
  induction L with
  | nil => simp [emsMS]
  | cons a L ihL =>
    rw [emsMS_cons]
    simp only [Multiset.count_add, Multiset.coe_count, List.map_cons, List.sum_cons]
    rw [ihL]

lemma card_emsMS (g : Grid) (L : List (Int × Int)) :
    Multiset.card (emsMS g L) = emsLen g L := by
  induction L with
  | nil => simp [emsMS, emsLen]
  | cons a L ihL =>
    rw [emsMS_cons, emsLen_cons]
    simp only [Multiset.card_add, Multiset.coe_card]
    rw [ihL]

lemma sum_count_le_one (g : Grid) (ε : Edge) :
    ∀ L : List (Int × Int), L.Nodup →
      (L.map (fun p => (emOf g p).count ε)).sum ≤ 1 := by
  intro L
  induction L with
  | nil => simp
  | cons a L ihL =>
    intro hnd
    simp only [List.map_cons, List.sum_cons]
    by_cases ha : ε ∈ emOf g a
    · have hz : (L.map (fun p => (emOf g p).count ε)).sum = 0 := by
        apply List.sum_eq_zero
        intro n hn
        obtain ⟨p, hp, rfl⟩ := List.mem_map.mp hn
        by_contra hne
        have hmem : ε ∈ emOf g p := by
          rw [← List.count_pos_iff_mem]
          omega
        have : p = a := by
          rw [(emOf_source hmem).2.1, (emOf_source ha).2.1]
        exact (List.nodup_cons.mp hnd).1 (this ▸ hp)
      have hle : (emOf g a).count ε ≤ 1 :=
        List.nodup_iff_count_le_one.mp (emOf_nodup g a) ε
      omega
    · have hz : (emOf g a).count ε = 0 := List.count_eq_zero.mpr ha
      rw [hz]
      simpa using ihL (List.nodup_cons.mp hnd).2

/-- No edge value is recorded twice during one trace. -/
lemma cp_edges_count_le_one (g : Grid) (ε : Edge) :
    (cpState g).edges.count ε ≤ 1 := by
  have h1 : (cpState g).edges.count ε = ((cpState g).edges : Multiset Edge).count ε := by
    simp [Multiset.coe_count]
  rw [h1, cp_edges_ms, count_emsMS]
  exact sum_count_le_one g ε _ (cp_visited_nodup g)

lemma cp_edges_nodup (g : Grid) : (cpState g).edges.Nodup :=
  List.nodup_iff_count_le_one.mpr (cp_edges_count_le_one g)

lemma mem_edges_iff_source (g : Grid) (ε : Edge) :
    ε ∈ (cpState g).edges ↔ ∃ p ∈ (cpState g).visited, ε ∈ emOf g p := by
  have h1 : ε ∈ (cpState g).edges ↔ ε ∈ ((cpState g).edges : Multiset Edge) := by
    simp [Multiset.mem_coe]
  rw [h1, cp_edges_ms]
  exact mem_emsMS

/-- `totalCount` always equals the length of the recorded edge list. -/
lemma cp_count_len (g : Grid) : (cpState g).count = (cpState g).edges.length := by
  have h1 : (cpState g).edges.length = Multiset.card ((cpState g).edges : Multiset Edge) := by
    simp
  rw [h1, cp_edges_ms, card_emsMS, cp_count_emsLen]

/-- Membership of the canonical edge of a pair (empty cell, direction) in
the recorded edge list is equivalent to the pair predicate of the
specification. -/
lemma mkEdge_mem_iff (g : Grid) (h0 : g.cell 0 0 ≠ 1) (e : Int × Int) (d : Nat)
    (hd : d < 6) : mkEdge e d ∈ (cpState g).edges ↔ PairP g e d := by
  rw [mem_edges_iff_source]
  constructor
  · rintro ⟨p, hp, hmem⟩
    obtain ⟨d', hd', hin', hfill', heq⟩ := mem_emOf.mp hmem
    have hdir : (d + 3) % 6 = (d' + 3) % 6 := by
      have := congrArg Edge.dir heq
      simpa [mkEdge] using this
    have hdd : d = d' := by omega
    subst hdd
    have hcoords : nbr e d = nbr p d := by
      have hx := congrArg Edge.x heq
      have hy := congrArg Edge.y heq
      simp only [mkEdge] at hx hy
      exact Prod.ext hy hx
    have hpe : p = e := by
      have h1 := nbr_symm p d hd
      have h2 := nbr_symm e d hd
      rw [← h1, ← h2, hcoords]
    subst hpe
    refine ⟨cp_visited_reaches g p hp, (cp_visited_open g p hp).2, hin', hfill'⟩
  · rintro ⟨hr, hemp, hin, hfill⟩
    exact ⟨e, (mem_visited_iff g h0 e).mpr hr, mem_emOf.mpr ⟨d, hd, hin, hfill, rfl⟩⟩

/-- Every recorded edge arises from an adjacency between a reachable empty
cell and an in-bounds filled cell. -/
lemma cp_edges_sound (g : Grid) :
    ∀ ε ∈ (cpState g).edges, ∃ e d, d < 6 ∧ ε = mkEdge e d ∧
      reaches g e ∧ g.cell e.1 e.2 ≠ 1 ∧
      inGrid g (nbr e d) ∧ g.cell (nbr e d).1 (nbr e d).2 = 1 := by
  intro ε hε
  obtain ⟨p, hp, hmem⟩ := (mem_edges_iff_source g ε).mp hε
  obtain ⟨d, hd, hin, hfill, rfl⟩ := mem_emOf.mp hmem
  exact ⟨p, d, hd, rfl, cp_visited_reaches g p hp, (cp_visited_open g p hp).2, hin, hfill⟩

/-- Walking right along the empty top border row from the seed. -/
lemma reach_top (g : Grid)
    (htop : ∀ j : Int, 0 ≤ j → j ≤ (g.W : Int) + 1 → g.cell 0 j ≠ 1) :
    ∀ n : Nat, (n : Int) ≤ (g.W : Int) + 1 → reaches g (0, (n : Int)) := by
  intro n
  induction n with
  | zero => intro _; exact Relation.ReflTransGen.refl
  | succ n ihn =>
    intro hle
    have hle' : (n : Int) ≤ (g.W : Int) + 1 := by push_cast at hle ⊢; omega
    have hle'' : ((n : Int) + 1) ≤ (g.W : Int) + 1 := by push_cast at hle ⊢; omega
    refine Relation.ReflTransGen.tail (ihn hle') ?_
    refine ⟨⟨⟨by omega, by omega, by omega, hle'⟩, htop _ (by omega) hle'⟩,
      ⟨⟨by omega, by omega, by omega, hle''⟩, htop _ (by omega) hle''⟩, 0, by omega, ?_⟩
    rw [step_right]
    push_cast
    rfl

/-- Walking straight down an empty column. -/
lemma reach_down (g : Grid)
    (htop : ∀ j : Int, 0 ≤ j → j ≤ (g.W : Int) + 1 → g.cell 0 j ≠ 1) :
    ∀ n : Nat, ∀ x : Int, 0 ≤ x → x ≤ (g.W : Int) + 1 → (n : Int) ≤ (g.H : Int) + 1 →
      (∀ k : Int, 0 ≤ k → k ≤ (n : Int) → g.cell k x ≠ 1) →
      reaches g ((n : Int), x) := by
  intro n
  induction n with
  | zero =>
    intro x hx0 hxW _ _
    have hx : ((x.toNat : Nat) : Int) = x := Int.toNat_of_nonneg hx0
    have := reach_top g htop x.toNat (by rw [hx]; exact hxW)
    rwa [hx] at this
  | succ n ihn =>
    intro x hx0 hxW hyH hcol
    have hyH' : (n : Int) ≤ (g.H : Int) + 1 := by push_cast at hyH ⊢; omega
    have hr := ihn x hx0 hxW hyH' (fun k hk0 hkn => hcol k hk0 (by omega))
    refine Relation.ReflTransGen.tail hr ?_
    obtain ⟨d, hd, hstep⟩ := step_down (n : Int) x
    refine ⟨⟨⟨by omega, hx0, by push_cast at hyH ⊢; omega, hxW⟩,
        hcol _ (by omega) (by omega)⟩,
      ⟨⟨by omega, hx0, by push_cast at hyH ⊢; omega, hxW⟩,
        hcol _ (by omega) (by push_cast; omega)⟩, d, hd, ?_⟩
    rw [hstep]
    push_cast
    rfl

/-- Any in-bounds cell with an empty column above it (through an empty top
row) is reachable. -/
lemma reach_down_int (g : Grid)
    (htop : ∀ j : Int, 0 ≤ j → j ≤ (g.W : Int) + 1 → g.cell 0 j ≠ 1)
    (y x : Int) (hy0 : 0 ≤ y) (hyH : y ≤ (g.H : Int) + 1)
    (hx0 : 0 ≤ x) (hxW : x ≤ (g.W : Int) + 1)
    (hcol : ∀ k : Int, 0 ≤ k → k ≤ y → g.cell k x ≠ 1) : reaches g (y, x) := by
  have hy : ((y.toNat : Nat) : Int) = y := Int.toNat_of_nonneg hy0
  have := reach_down g htop y.toNat x hx0 hxW (by rw [hy]; exact hyH)
    (by rw [hy]; exact hcol)
  rwa [hy] at this

/-- If at most the two cells `a` and `b` are filled and every filled cell is
a content cell, then every in-bounds empty cell is reachable from the
outside seed `(0, 0)`: two filled cells can block at most two of the three
columns around any empty cell. -/
lemma reaches_of_le_two (g : Grid) (a b : Int × Int)
    (hab : ∀ p : Int × Int, g.cell p.1 p.2 = 1 →
      (p = a ∨ p = b) ∧ 1 ≤ p.1 ∧ p.1 ≤ (g.H : Int) ∧ 1 ≤ p.2 ∧ p.2 ≤ (g.W : Int))
    (e : Int × Int) (hin : inGrid g e) (hemp : g.cell e.1 e.2 ≠ 1) :
    reaches g e := by
  have htop : ∀ j : Int, 0 ≤ j → j ≤ (g.W : Int) + 1 → g.cell 0 j ≠ 1 := by
    intro j _ _ hc
    have := (hab (0, j) hc).2.1
    omega
  obtain ⟨ey, ex⟩ := e
  obtain ⟨he1, he2, he3, he4⟩ := hin
  simp only at he1 he2 he3 he4
  by_cases hcol : ∀ k : Int, 0 ≤ k → k ≤ ey → g.cell k ex ≠ 1
  · exact reach_down_int g htop ey ex he1 he3 he2 he4 hcol
  · push_neg at hcol
    obtain ⟨k₀, hk₀0, hk₀e, hk₀f⟩ := hcol
    have hb₀ := hab (k₀, ex) hk₀f
    by_cases hcolL : ∀ k : Int, 0 ≤ k → k ≤ ey → g.cell k (ex - 1) ≠ 1
    · have hreach : reaches g (ey, ex - 1) :=
        reach_down_int g htop ey (ex - 1) he1 he3 (by omega) (by omega) hcolL
      refine Relation.ReflTransGen.tail hreach ?_
      refine ⟨⟨⟨he1, by omega, he3, by omega⟩, hcolL ey he1 (le_refl ey)⟩,
        ⟨⟨he1, he2, he3, he4⟩, hemp⟩, 0, by omega, ?_⟩
      rw [step_right]
      congr 1
      omega
    · push_neg at hcolL
      obtain ⟨k₁, hk₁0, hk₁e, hk₁f⟩ := hcolL
      have hb₁ := hab (k₁, ex - 1) hk₁f
      have hcolR : ∀ k : Int, 0 ≤ k → k ≤ ey → g.cell k (ex + 1) ≠ 1 := by
        intro k hk0 hke hkf
        have hb₂ := hab (k, ex + 1) hkf
        rcases hb₀.1 with h0 | h0 <;> rcases hb₁.1 with h1 | h1 <;>
          rcases hb₂.1 with h2 | h2 <;>
          simp_all [Prod.ext_iff] <;> omega
      have hreach : reaches g (ey, ex + 1) :=
        reach_down_int g htop ey (ex + 1) he1 he3 (by omega)
          (by have := hb₀.2.2.2.2; omega) hcolR
      refine Relation.ReflTransGen.tail hreach ?_
      refine ⟨⟨⟨he1, by omega, he3, by have := hb₀.2.2.2.2; omega⟩,
          hcolR ey he1 (le_refl ey)⟩,
        ⟨⟨he1, he2, he3, he4⟩, hemp⟩, 3, by omega, ?_⟩
      rw [step_left]
      congr 1
      omega

lemma sum_toFinset_of_nodup {α M : Type} [DecidableEq α] [AddCommMonoid M] (f : α → M) :
    ∀ l : List α, l.Nodup → (∑ a ∈ l.toFinset, f a) = (l.map f).sum := by
  intro l
  induction l with
  | nil => simp
  | cons a l ih =>
    intro h
    obtain ⟨ha, hl⟩ := List.nodup_cons.mp h
    rw [List.toFinset_cons, Finset.sum_insert (by simpa using ha), List.map_cons,
      List.sum_cons, ih hl]

/-- The finite set of pairs (visited empty cell, direction towards an
in-bounds filled neighbor) discovered by the trace. -/
def pairFinset (g : Grid) : Finset ((Int × Int) × Nat) :=
  (cpState g).visited.toFinset.biUnion (fun p =>
    (((List.range 6).filter (fun d =>
        decide (inGrid g (nbr p d) ∧ g.cell (nbr p d).1 (nbr p d).2 = 1))).map
      (fun d => (p, d))).toFinset)

lemma mem_pairFinset {g : Grid} {e : Int × Int} {d : Nat} :
    (e, d) ∈ pairFinset g ↔ e ∈ (cpState g).visited ∧ d < 6 ∧
      inGrid g (nbr e d) ∧ g.cell (nbr e d).1 (nbr e d).2 = 1 := by
  unfold pairFinset
  simp only [Finset.mem_biUnion, List.mem_toFinset, List.mem_map, List.mem_filter,
    List.mem_range, decide_eq_true_eq, Prod.mk.injEq]
  constructor
  · rintro ⟨p, hp, d', ⟨⟨hd', hin, hfill⟩, rfl, rfl⟩⟩
    exact ⟨hp, hd', hin, hfill⟩
  · rintro ⟨hv, hd, hin, hfill⟩
    exact ⟨e, hv, d, ⟨⟨hd, hin, hfill⟩, rfl, rfl⟩⟩

lemma pairFinset_card (g : Grid) : (pairFinset g).card = (cpState g).count := by
  unfold pairFinset
  rw [Finset.card_biUnion]
  · have hper : ∀ p : Int × Int,
        ((((List.range 6).filter (fun d =>
            decide (inGrid g (nbr p d) ∧ g.cell (nbr p d).1 (nbr p d).2 = 1))).map
          (fun d => (p, d))).toFinset).card = (emOf g p).length := by
      intro p
      have hnd : (((List.range 6).filter (fun d =>
          decide (inGrid g (nbr p d) ∧ g.cell (nbr p d).1 (nbr p d).2 = 1))).map
        (fun d => (p, d))).Nodup := by
        refine List.Nodup.map ?_ ((List.nodup_range 6).filter _)
        intro u v huv
        simpa using huv
      rw [List.toFinset_card_of_nodup hnd, List.length_map]
      unfold emOf emPart
      rw [List.length_map]
    rw [Finset.sum_congr rfl (fun p _ => hper p),
      sum_toFinset_of_nodup _ _ (cp_visited_nodup g), cp_count_emsLen]
    rfl
  · intro p hp q hq hpq
    rw [Finset.disjoint_left]
    intro ed hed hed'
    simp only [List.mem_toFinset, List.mem_map] at hed hed'
    obtain ⟨d1, _, heq1⟩ := hed
    obtain ⟨d2, _, heq2⟩ := hed'
    apply hpq
    have h1 : ed.1 = p := by rw [← heq1]
    have h2 : ed.1 = q := by rw [← heq2]
    rw [← h1, h2]

/-- The pair set of claim C1 coincides with the computed pair finset. -/
lemma pair_set_eq (g : Grid) (h0 : g.cell 0 0 ≠ 1) :
    {pd : (Int × Int) × Nat | pd.2 < 6 ∧ PairP g pd.1 pd.2} = ↑(pairFinset g) := by
  ext ⟨e, d⟩
  simp only [Set.mem_setOf_eq, Finset.coe_sort_coe, Finset.mem_coe, mem_pairFinset]
  constructor
  · rintro ⟨hd, hr, hemp, hin, hfill⟩
    exact ⟨(mem_visited_iff g h0 e).mpr hr, hd, hin, hfill⟩
  · rintro ⟨hv, hd, hin, hfill⟩
    exact ⟨hd, cp_visited_reaches g e hv, (cp_visited_open g e hv).2, hin, hfill⟩

/-- The returned count equals the number of pairs (reachable empty cell,
filled in-bounds neighbor). -/
lemma cp_count_ncard (g : Grid) (h0 : g.cell 0 0 ≠ 1) :
    (cpState g).count = Set.ncard {pd : (Int × Int) × Nat | pd.2 < 6 ∧ PairP g pd.1 pd.2} := by
  rw [pair_set_eq g h0, Set.ncard_coe_Finset, pairFinset_card]

lemma borderEmpty_origin {g : Grid} (hb : borderEmpty g) : g.cell 0 0 ≠ 1 := by
  have := hb 0 0 (inGrid_origin g) (Or.inl rfl)
  omega

/-- Trace output for a grid with a single filled interior content cell: the
edge list holds exactly the six sides of that cell. -/
lemma single_cell_spec (g : Grid) (r c : Int)
    (hr2 : 2 ≤ r) (hrH : r ≤ (g.H : Int) - 1) (hc2 : 2 ≤ c) (hcW : c ≤ (g.W : Int) - 1)
    (hcell : ∀ y x : Int, g.cell y x = 1 ↔ (y, x) = (r, c)) :
    (∀ δ : Nat, (⟨c, r, δ⟩ : Edge) ∈ (cpState g).edges ↔ δ < 6) ∧
    (∀ ε ∈ (cpState g).edges, ε.y = r ∧ ε.x = c) ∧
    (cpState g).edges.length = 6 := by
  have h0 : g.cell 0 0 ≠ 1 := by
    intro h
    have h1 := (hcell 0 0).mp h
    have h2 : (0 : Int) = r := congrArg Prod.fst h1
    omega
  have hfR : g.cell r c = 1 := (hcell r c).mpr rfl
  have hab : ∀ p : Int × Int, g.cell p.1 p.2 = 1 →
      ((p = (r, c) ∨ p = (r, c)) ∧ 1 ≤ p.1 ∧ p.1 ≤ (g.H : Int) ∧
        1 ≤ p.2 ∧ p.2 ≤ (g.W : Int)) := by
    intro p hp
    have h1 := (hcell p.1 p.2).mp hp
    rw [Prod.mk.eta] at h1
    subst h1
    exact ⟨Or.inl rfl, by omega, by omega, by omega, by omega⟩
  have hinRC : inGrid g (r, c) := ⟨by omega, by omega, by omega, by omega⟩
  have hmemdir : ∀ δ : Nat, δ < 6 → (⟨c, r, δ⟩ : Edge) ∈ (cpState g).edges := by
    intro δ hδ
    have hs := nbr_symm (r, c) δ hδ
    have hδ3 : (δ + 3) % 6 < 6 := by omega
    have hform : mkEdge (nbr (r, c) δ) ((δ + 3) % 6) = ⟨c, r, δ⟩ := by
      unfold mkEdge
      rw [hs]
      have hh : ((δ + 3) % 6 + 3) % 6 = δ := by omega
      rw [hh]
    rw [← hform, mkEdge_mem_iff g h0 _ _ hδ3]
    have hne := nbr_ne_self (r, c) hδ
    obtain ⟨hb1, hb2, hb3, hb4⟩ := nbr_close (r, c) hδ
    simp only at hb1 hb2 hb3 hb4
    have hinE : inGrid g (nbr (r, c) δ) := ⟨by omega, by omega, by omega, by omega⟩
    have hempE : g.cell (nbr (r, c) δ).1 (nbr (r, c) δ).2 ≠ 1 := by
      intro hcc
      have h1 := (hcell _ _).mp hcc
      rw [Prod.mk.eta] at h1
      exact hne h1
    refine ⟨reaches_of_le_two g (r, c) (r, c) hab _ hinE hempE, hempE, ?_, ?_⟩
    · rw [hs]
      exact hinRC
    · rw [hs]
      exact hfR
  have hsound : ∀ ε ∈ (cpState g).edges, ε.y = r ∧ ε.x = c ∧ ε.dir < 6 := by
    intro ε hε
    obtain ⟨e, d', hd', rfl, hre, hemp, hin, hfill⟩ := cp_edges_sound g ε hε
    have htgt : nbr e d' = (r, c) := by
      have h1 := (hcell (nbr e d').1 (nbr e d').2).mp hfill
      rwa [Prod.mk.eta] at h1
    unfold mkEdge
    rw [htgt]
    refine ⟨rfl, rfl, ?_⟩
    show (d' + 3) % 6 < 6
    omega
  have htf : (cpState g).edges.toFinset =
      (Finset.range 6).image (fun δ => (⟨c, r, δ⟩ : Edge)) := by
    ext ε
    simp only [List.mem_toFinset, Finset.mem_image, Finset.mem_range]
    constructor
    · intro hε
      obtain ⟨hy, hx, hdir⟩ := hsound ε hε
      refine ⟨ε.dir, hdir, ?_⟩
      obtain ⟨εx, εy, εd⟩ := ε
      simp only at hy hx
      rw [hy, hx]
    · rintro ⟨δ, hδ, rfl⟩
      exact hmemdir δ hδ
  have hlen : (cpState g).edges.length = 6 := by
    rw [← List.toFinset_card_of_nodup (cp_edges_nodup g), htf,
      Finset.card_image_of_injective _ (fun u v huv => by simpa using huv),
      Finset.card_range]
  refine ⟨?_, fun ε hε => ⟨(hsound ε hε).1, (hsound ε hε).2.1⟩, hlen⟩
  intro δ
  constructor
  · intro h
    exact (hsound _ h).2.2
  · exact hmemdir δ

/-- Trace output for a grid with exactly two adjacent filled content cells:
the count is 10 and the two mutually-facing sides are never recorded. -/
lemma pair_cell_spec (g : Grid) (a : Int × Int) (d : Nat) (hd : d < 6)
    (ha1 : 1 ≤ a.1) (ha2 : a.1 ≤ (g.H : Int)) (ha3 : 1 ≤ a.2) (ha4 : a.2 ≤ (g.W : Int))
    (hb1 : 1 ≤ (nbr a d).1) (hb2 : (nbr a d).1 ≤ (g.H : Int))
    (hb3 : 1 ≤ (nbr a d).2) (hb4 : (nbr a d).2 ≤ (g.W : Int))
    (hcell : ∀ y x : Int, g.cell y x = 1 ↔ (y, x) = a ∨ (y, x) = nbr a d) :
    (cpState g).count = 10 ∧
    (⟨a.2, a.1, d⟩ : Edge) ∉ (cpState g).edges ∧
    (⟨(nbr a d).2, (nbr a d).1, (d + 3) % 6⟩ : Edge) ∉ (cpState g).edges := by
  have h0 : g.cell 0 0 ≠ 1 := by
    intro h
    rcases (hcell 0 0).mp h with h1 | h1
    · have h2 : (0 : Int) = a.1 := congrArg Prod.fst h1
      omega
    · have h2 : (0 : Int) = (nbr a d).1 := congrArg Prod.fst h1
      omega
  have hfa : g.cell a.1 a.2 = 1 := (hcell a.1 a.2).mpr (by rw [Prod.mk.eta]; exact Or.inl rfl)
  have hfb : g.cell (nbr a d).1 (nbr a d).2 = 1 :=
    (hcell (nbr a d).1 (nbr a d).2).mpr (by rw [Prod.mk.eta]; exact Or.inr rfl)
  have hab : ∀ p : Int × Int, g.cell p.1 p.2 = 1 →
      ((p = a ∨ p = nbr a d) ∧ 1 ≤ p.1 ∧ p.1 ≤ (g.H : Int) ∧
        1 ≤ p.2 ∧ p.2 ≤ (g.W : Int)) := by
    intro p hp
    have h1 := (hcell p.1 p.2).mp hp
    rw [Prod.mk.eta] at h1
    rcases h1 with h1 | h1 <;> subst h1
    · exact ⟨Or.inl rfl, ha1, ha2, ha3, ha4⟩
    · exact ⟨Or.inr rfl, hb1, hb2, hb3, hb4⟩
  have hsymb : nbr (nbr a d) ((d + 3) % 6) = a := nbr_symm a d hd
  have hANEb : a ≠ nbr a d := (nbr_ne_self a hd).symm
  have hina : inGrid g a := ⟨by omega, by omega, by omega, by omega⟩
  have hinb : inGrid g (nbr a d) := ⟨by omega, by omega, by omega, by omega⟩
  -- sides of `a`
  have memA : ∀ δ : Nat, δ < 6 →
      ((⟨a.2, a.1, δ⟩ : Edge) ∈ (cpState g).edges ↔ δ ≠ d) := by
    intro δ hδ
    have hs := nbr_symm a δ hδ
    have hδ3 : (δ + 3) % 6 < 6 := by omega
    have hform : mkEdge (nbr a δ) ((δ + 3) % 6) = ⟨a.2, a.1, δ⟩ := by
      unfold mkEdge
      rw [hs]
      have hh : ((δ + 3) % 6 + 3) % 6 = δ := by omega
      rw [hh]
    rw [← hform, mkEdge_mem_iff g h0 _ _ hδ3]
    constructor
    · rintro ⟨_, hemp, _, _⟩ rfl
      exact hemp hfb
    · intro hne
      have hsne : g.cell (nbr a δ).1 (nbr a δ).2 ≠ 1 := by
        intro hcc
        have h1 := (hcell _ _).mp hcc
        rw [Prod.mk.eta] at h1
        rcases h1 with h1 | h1
        · exact nbr_ne_self a hδ h1
        · exact hne (nbr_inj a hδ hd h1)
      obtain ⟨hc1, hc2, hc3, hc4⟩ := nbr_close a hδ
      have hinS : inGrid g (nbr a δ) := ⟨by omega, by omega, by omega, by omega⟩
      refine ⟨reaches_of_le_two g a (nbr a d) hab _ hinS hsne, hsne, ?_, ?_⟩
      · rw [hs]; exact hina
      · rw [hs]; exact hfa
  -- sides of `b`
  have memB : ∀ δ : Nat, δ < 6 →
      ((⟨(nbr a d).2, (nbr a d).1, δ⟩ : Edge) ∈ (cpState g).edges ↔ δ ≠ (d + 3) % 6) := by
    intro δ hδ
    have hs := nbr_symm (nbr a d) δ hδ
    have hδ3 : (δ + 3) % 6 < 6 := by omega
    have hform : mkEdge (nbr (nbr a d) δ) ((δ + 3) % 6) = ⟨(nbr a d).2, (nbr a d).1, δ⟩ := by
      unfold mkEdge
      rw [hs]
      have hh : ((δ + 3) % 6 + 3) % 6 = δ := by omega
      rw [hh]
    rw [← hform, mkEdge_mem_iff g h0 _ _ hδ3]
    constructor
    · rintro ⟨_, hemp, _, _⟩ rfl
      rw [hsymb] at hemp
      exact hemp hfa
    · intro hne
      have hsne : g.cell (nbr (nbr a d) δ).1 (nbr (nbr a d) δ).2 ≠ 1 := by
        intro hcc
        have h1 := (hcell _ _).mp hcc
        rw [Prod.mk.eta] at h1
        rcases h1 with h1 | h1
        · exact hne (nbr_inj (nbr a d) hδ (by omega : (d + 3) % 6 < 6) (h1.trans hsymb.symm))
        · exact nbr_ne_self (nbr a d) hδ h1
      obtain ⟨hc1, hc2, hc3, hc4⟩ := nbr_close (nbr a d) hδ
      have hinS : inGrid g (nbr (nbr a d) δ) := ⟨by omega, by omega, by omega, by omega⟩
      refine ⟨reaches_of_le_two g a (nbr a d) hab _ hinS hsne, hsne, ?_, ?_⟩
      · rw [hs]; exact hinb
      · rw [hs]; exact hfb
  have hsound : ∀ ε ∈ (cpState g).edges,
      (∃ δ, δ < 6 ∧ ε = ⟨a.2, a.1, δ⟩) ∨
      (∃ δ, δ < 6 ∧ ε = ⟨(nbr a d).2, (nbr a d).1, δ⟩) := by
    intro ε hε
    obtain ⟨e, d', hd', rfl, hre, hemp, hin, hfill⟩ := cp_edges_sound g ε hε
    have h1 := (hcell (nbr e d').1 (nbr e d').2).mp hfill
    rw [Prod.mk.eta] at h1
    rcases h1 with h1 | h1
    · left
      refine ⟨(d' + 3) % 6, by omega, ?_⟩
      unfold mkEdge
      rw [h1]
    · right
      refine ⟨(d' + 3) % 6, by omega, ?_⟩
      unfold mkEdge
      rw [h1]
  have htf : (cpState g).edges.toFinset =
      ((Finset.range 6).erase d).image (fun δ => (⟨a.2, a.1, δ⟩ : Edge)) ∪
      ((Finset.range 6).erase ((d + 3) % 6)).image
        (fun δ => (⟨(nbr a d).2, (nbr a d).1, δ⟩ : Edge)) := by
    ext ε
    simp only [List.mem_toFinset, Finset.mem_union, Finset.mem_image, Finset.mem_erase,
      Finset.mem_range]
    constructor
    · intro hε
      rcases hsound ε hε with ⟨δ, hδ, rfl⟩ | ⟨δ, hδ, rfl⟩
      · refine Or.inl ⟨δ, ⟨?_, hδ⟩, rfl⟩
        intro hεd
        rw [hεd] at hε
        exact ((memA d hd).mp hε) rfl
      · refine Or.inr ⟨δ, ⟨?_, hδ⟩, rfl⟩
        intro hεd
        rw [hεd] at hε
        exact ((memB ((d + 3) % 6) (by omega)).mp hε) rfl
    · rintro (⟨δ, ⟨hne, hδ⟩, rfl⟩ | ⟨δ, ⟨hne, hδ⟩, rfl⟩)
      · exact (memA δ hδ).mpr hne
      · exact (memB δ hδ).mpr hne
  have hdisj : Disjoint
      (((Finset.range 6).erase d).image (fun δ => (⟨a.2, a.1, δ⟩ : Edge)))
      (((Finset.range 6).erase ((d + 3) % 6)).image
        (fun δ => (⟨(nbr a d).2, (nbr a d).1, δ⟩ : Edge))) := by
    rw [Finset.disjoint_left]
    intro ε hεa hεb
    simp only [Finset.mem_image, Finset.mem_erase, Finset.mem_range] at hεa hεb
    obtain ⟨δ, _, rfl⟩ := hεa
    obtain ⟨δ', _, hεeq⟩ := hεb
    simp only [Edge.mk.injEq] at hεeq
    exact hANEb (Prod.ext hεeq.2.1.symm hεeq.1.symm)
  have hcard : (cpState g).edges.length = 10 := by
    rw [← List.toFinset_card_of_nodup (cp_edges_nodup g), htf,
      Finset.card_union_of_disjoint hdisj,
      Finset.card_image_of_injective _ (fun u v huv => by simpa using huv),
      Finset.card_image_of_injective _ (fun u v huv => by simpa using huv),
      Finset.card_erase_of_mem (Finset.mem_range.mpr hd),
      Finset.card_erase_of_mem (Finset.mem_range.mpr (by omega : (d + 3) % 6 < 6)),
      Finset.card_range]
  refine ⟨by rw [cp_count_len g]; exact hcard, ?_, ?_⟩
  · intro h
    exact ((memA d hd).mp h) rfl
  · intro h
    exact ((memB ((d + 3) % 6) (by omega)).mp h) rfl

/-- A 1×1 all-empty grid. -/
def wEmpty : Grid := ⟨1, 1, fun _ _ => 0⟩

/-- A 3×3 grid with the single content cell (row 2, col 2) filled. -/
def wSingle : Grid := ⟨3, 3, fun y x => if y = 2 ∧ x = 2 then 1 else 0⟩

/-- A 3×3 grid with the adjacent content cells (2,2) and (2,3) filled. -/
def wPair : Grid := ⟨3, 3, fun y x => if (y = 2 ∧ x = 2) ∨ (y = 2 ∧ x = 3) then 1 else 0⟩

/-- A 5×5 grid with cell (3,3) filled together with all six of its
neighbors. -/
def wFlower : Grid := ⟨5, 5, fun y x =>
  if (y = 3 ∧ x = 3) ∨ (y = 3 ∧ x = 4) ∨ (y = 4 ∧ x = 4) ∨ (y = 4 ∧ x = 3) ∨
     (y = 3 ∧ x = 2) ∨ (y = 2 ∧ x = 3) ∨ (y = 2 ∧ x = 4) then 1 else 0⟩

/-- A grid whose seed corner (0,0) is filled, violating the border
invariant. -/
def wOriginFilled : Grid := ⟨2, 2, fun y x => if y = 0 ∧ x = 0 then 1 else 0⟩

/-- An object state with stale visited/edge data from a previous trace. -/
def wStale : HexGridState := ⟨wSingle, [((0 : Int), (0 : Int))], [⟨9, 9, 9⟩]⟩

/-- An object state with no stale data. -/
def wFresh : HexGridState := ⟨wSingle, [], []⟩

lemma wEmpty_border : borderEmpty wEmpty := fun _ _ _ _ => rfl

lemma wSingle_border : borderEmpty wSingle := by
  intro y x hin hbd
  obtain ⟨h1, h2, h3, h4⟩ := hin
  simp only [wSingle] at h3 h4 hbd ⊢
  rw [if_neg (by push_cast at h3 h4 hbd ⊢; omega)]

lemma wSingle_cell : ∀ y x : Int, wSingle.cell y x = 1 ↔ (y, x) = ((2 : Int), (2 : Int)) := by
  intro y x
  simp only [wSingle]
  split
  · rename_i h
    simp only [Prod.mk.injEq]
    exact ⟨fun _ => ⟨h.1, h.2⟩, fun _ => trivial⟩
  · rename_i h
    simp only [Prod.mk.injEq]
    constructor
    · intro h0
      exact absurd h0 (by omega)
    · intro h0
      exact absurd h0 h

lemma wPair_cell : ∀ y x : Int, wPair.cell y x = 1 ↔
    (y, x) = ((2 : Int), (2 : Int)) ∨ (y, x) = nbr ((2 : Int), (2 : Int)) 0 := by
  have hn : nbr ((2 : Int), (2 : Int)) 0 = ((2 : Int), (3 : Int)) := by decide
  intro y x
  rw [hn]
  simp only [wPair]
  split
  · rename_i h
    simp only [Prod.mk.injEq]
    constructor
    · intro _
      rcases h with h | h
      · exact Or.inl ⟨h.1, h.2⟩
      · exact Or.inr ⟨h.1, h.2⟩
    · intro _
      trivial
  · rename_i h
    simp only [Prod.mk.injEq]
    constructor
    · intro h0
      exact absurd h0 (by omega)
    · intro h0
      rcases h0 with h0 | h0
      · exact absurd (Or.inl h0) h
      · exact absurd (Or.inr h0) h

/-- C1: For every grid of dimensions (H+2)x(W+2) whose border ring is empty,
`computePerimeter()` returns exactly the number of pairs (e, f) where e is
an empty cell reachable from (0,0) through empty cells under the row-parity
adjacency and f is a filled neighbor of e; and the accumulated edge list
contains exactly one entry `{y: f.row, x: f.col, dir: (d+3) mod 6}` for each
such pair, where d is the direction from e to f. -/
theorem claim_C1 (g : Grid) (hb : borderEmpty g) :
    (computePerimeter g).1 = (computePerimeter g).2.length ∧
    (∀ e : Int × Int, ∀ d : Nat, d < 6 →
      (mkEdge e d ∈ (computePerimeter g).2 ↔ PairP g e d)) ∧
    (∀ e : Int × Int, ∀ d : Nat, d < 6 → PairP g e d →
      (computePerimeter g).2.count (mkEdge e d) = 1) ∧
    (∀ ε ∈ (computePerimeter g).2, ∃ e d, d < 6 ∧ PairP g e d ∧ ε = mkEdge e d) ∧
    (computePerimeter g).1 =
      Set.ncard {pd : (Int × Int) × Nat | pd.2 < 6 ∧ PairP g pd.1 pd.2} := by
  have h0 := borderEmpty_origin hb
  refine ⟨cp_count_len g, ?_, ?_, ?_, cp_count_ncard g h0⟩
  · intro e d hd
    exact mkEdge_mem_iff g h0 e d hd
  · intro e d hd hP
    have hmem := (mkEdge_mem_iff g h0 e d hd).mpr hP
    have hle := cp_edges_count_le_one g (mkEdge e d)
    have hge : 0 < (cpState g).edges.count (mkEdge e d) :=
      List.count_pos_iff_mem.mpr hmem
    show (cpState g).edges.count (mkEdge e d) = 1
    omega
  · intro ε hε
    obtain ⟨e, d, hd, hform, hre, hemp, hin, hfill⟩ := cp_edges_sound g ε hε
    exact ⟨e, d, hd, ⟨hre, hemp, hin, hfill⟩, hform⟩

/-- C1 witness: an all-empty 1×1 grid satisfies the border invariant and
the theorem applies to it. -/
theorem claim_C1_witness :
    (computePerimeter wEmpty).1 = (computePerimeter wEmpty).2.length :=
  (claim_C1 wEmpty wEmpty_border).1

/-- C2: For every cell (row, col) and every direction d in 0..5, the
neighbor offset used by the traversal equals the spec's parity table: for
even rows the offsets (Δcol, Δrow) are (+1,0), (0,+1), (−1,+1), (−1,0),
(−1,−1), (0,−1), and for odd rows (+1,0), (+1,+1), (0,+1), (−1,0), (0,−1),
(+1,−1). -/
theorem claim_C2 (y x : Int) (d : Nat) (hd : d < 6) :
    (dxAt (parOf y) d, dyAt (parOf y) d) =
      (if y % 2 = 0 then specEvenOffsets else specOddOffsets).getD d (0, 0) ∧
    nbr (y, x) d =
      (y + ((if y % 2 = 0 then specEvenOffsets else specOddOffsets).getD d (0, 0)).2,
       x + ((if y % 2 = 0 then specEvenOffsets else specOddOffsets).getD d (0, 0)).1) := by
  rcases (by omega : y % 2 = 0 ∨ y % 2 = 1) with h | h
  · have q0 : parOf y = 0 := parOf_eq_zero h
    interval_cases d <;>
      simp [nbr, q0, h, dxAt, dyAt, dx, dy, specEvenOffsets]
  · have q0 : parOf y = 1 := parOf_eq_one h
    interval_cases d <;>
      simp [nbr, q0, h, dxAt, dyAt, dx, dy, specOddOffsets]

/-- C2 witness: the theorem applied at the odd row 5, column 7,
direction 2. -/
theorem claim_C2_witness :
    (dxAt (parOf 5) 2, dyAt (parOf 5) 2) =
      (if (5 : Int) % 2 = 0 then specEvenOffsets else specOddOffsets).getD 2 (0, 0) ∧
    nbr (5, 7) 2 =
      ((5 : Int) +
        ((if (5 : Int) % 2 = 0 then specEvenOffsets else specOddOffsets).getD 2 (0, 0)).2,
       (7 : Int) +
        ((if (5 : Int) % 2 = 0 then specEvenOffsets else specOddOffsets).getD 2 (0, 0)).1) :=
  claim_C2 5 7 2 (by omega)

/-- C3: During one `computePerimeter()` trace, each (filled cell,
sideIndex) pair appears at most once in the edge list; an edge is emitted
only for an adjacency between an outside-reachable empty cell and a filled
cell, never for filled-filled or empty-empty adjacencies, and never twice
for the same side of the same filled cell. -/
theorem claim_C3 (g : Grid) :
    (∀ ε : Edge, (computePerimeter g).2.count ε ≤ 1) ∧
    (∀ ε ∈ (computePerimeter g).2, ∃ e d, d < 6 ∧ ε = mkEdge e d ∧
      reaches g e ∧ g.cell e.1 e.2 ≠ 1 ∧
      inGrid g (nbr e d) ∧ g.cell (nbr e d).1 (nbr e d).2 = 1) :=
  ⟨fun ε => cp_edges_count_le_one g ε, cp_edges_sound g⟩

/-- C4: Every grid-mutating operation preserves the border-ring invariant:
after `initEmptyGrid`, after `loadFromInput`, and after any click-toggle of
a content cell, every cell with row 0, row H+1, col 0, or col W+1 is
empty. -/
theorem claim_C4 :
    (∀ W H : Nat, borderEmpty (initEmptyGrid W H)) ∧
    (∀ W H : Nat, ∀ rows : List (List Int), borderEmpty (loadFromInput W H rows)) ∧
    (∀ g : Grid, ∀ y x : Int, borderEmpty g → 1 ≤ y → y ≤ (g.H : Int) →
      1 ≤ x → x ≤ (g.W : Int) → borderEmpty (handleClick g y x)) := by
  refine ⟨?_, ?_, ?_⟩
  · intro W H y x _ _
    rfl
  · intro W H rows y x hin hbd
    obtain ⟨h1, h2, h3, h4⟩ := hin
    have hH : (loadFromInput W H rows).H = H := rfl
    have hW : (loadFromInput W H rows).W = W := rfl
    rw [hH] at h3 hbd
    rw [hW] at h4 hbd
    show (loadFromInput W H rows).cell y x = 0
    simp only [loadFromInput]
    rw [if_neg (by omega)]
  · intro g y x hb h1 h2 h3 h4
    intro y' x' hin' hbd'
    obtain ⟨g1, g2, g3, g4⟩ := hin'
    have hH : (handleClick g y x).H = g.H := rfl
    have hW : (handleClick g y x).W = g.W := rfl
    rw [hH] at g3 hbd'
    rw [hW] at g4 hbd'
    show (handleClick g y x).cell y' x' = 0
    simp only [handleClick]
    rw [if_neg (by omega)]
    exact hb y' x' ⟨g1, g2, g3, g4⟩ hbd'

/-- C4 witness: toggling content cell (1,1) of the single-cell grid keeps
border cell (0,0) empty. -/
theorem claim_C4_witness : (handleClick wSingle 1 1).cell 0 0 = 0 :=
  (claim_C4.2.2 wSingle 1 1 wSingle_border (by decide) (by decide) (by decide)
    (by decide)) 0 0 (inGrid_origin _) (Or.inl rfl)

/-- C5: For every W, H ≥ 3 and a grid with exactly one filled cell not
touching the content border (2 ≤ row ≤ H−1, 2 ≤ col ≤ W−1),
`computePerimeter()` returns 6 and the edge list contains exactly six
entries, one for each sideIndex 0..5, all naming that cell. -/
theorem claim_C5 (g : Grid) (r c : Int) (hW : 3 ≤ g.W) (hH : 3 ≤ g.H)
    (hr2 : 2 ≤ r) (hrH : r ≤ (g.H : Int) - 1) (hc2 : 2 ≤ c) (hcW : c ≤ (g.W : Int) - 1)
    (hcell : ∀ y x : Int, g.cell y x = 1 ↔ (y, x) = (r, c)) :
    (computePerimeter g).1 = 6 ∧ (computePerimeter g).2.length = 6 ∧
    (∀ δ : Nat, (⟨c, r, δ⟩ : Edge) ∈ (computePerimeter g).2 ↔ δ < 6) ∧
    (∀ ε ∈ (computePerimeter g).2, ε.y = r ∧ ε.x = c) ∧
    (computePerimeter g).2.Nodup := by
  obtain ⟨hmem, hname, hlen⟩ := single_cell_spec g r c hr2 hrH hc2 hcW hcell
  exact ⟨(cp_count_len g).trans hlen, hlen, hmem, hname, cp_edges_nodup g⟩

/-- C5 witness: the 3×3 grid with the single filled cell (2,2). -/
theorem claim_C5_witness : (computePerimeter wSingle).1 = 6 :=
  (claim_C5 wSingle 2 2 (by decide) (by decide) (by decide) (by decide) (by decide)
    (by decide) wSingle_cell).1

/-- C6: For every grid containing exactly two filled content cells that are
adjacent under the parity table (and no other filled cells),
`computePerimeter()` returns 10, and neither of the two mutually-facing
internal sides appears in the edge list. -/
theorem claim_C6 (g : Grid) (a : Int × Int) (d : Nat) (hd : d < 6)
    (ha1 : 1 ≤ a.1) (ha2 : a.1 ≤ (g.H : Int)) (ha3 : 1 ≤ a.2) (ha4 : a.2 ≤ (g.W : Int))
    (hb1 : 1 ≤ (nbr a d).1) (hb2 : (nbr a d).1 ≤ (g.H : Int))
    (hb3 : 1 ≤ (nbr a d).2) (hb4 : (nbr a d).2 ≤ (g.W : Int))
    (hcell : ∀ y x : Int, g.cell y x = 1 ↔ (y, x) = a ∨ (y, x) = nbr a d) :
    (computePerimeter g).1 = 10 ∧
    (⟨a.2, a.1, d⟩ : Edge) ∉ (computePerimeter g).2 ∧
    (⟨(nbr a d).2, (nbr a d).1, (d + 3) % 6⟩ : Edge) ∉ (computePerimeter g).2 :=
  pair_cell_spec g a d hd ha1 ha2 ha3 ha4 hb1 hb2 hb3 hb4 hcell

/-- C6 witness: the 3×3 grid with the adjacent filled pair (2,2)-(2,3). -/
theorem claim_C6_witness : (computePerimeter wPair).1 = 10 :=
  (claim_C6 wPair (2, 2) 0 (by omega) (by decide) (by decide) (by decide) (by decide)
    (by decide) (by decide) (by decide) (by decide) wPair_cell).1

/-- C7: A filled cell all six of whose neighbors are filled (so no empty
path from the outside reaches it) contributes zero entries to the edge list
and zero to the count returned by `computePerimeter()`; fully interior
filled cells never appear in the perimeter. -/
theorem claim_C7 (g : Grid) (f : Int × Int) (hf : g.cell f.1 f.2 = 1)
    (hnb : ∀ δ : Nat, δ < 6 → g.cell (nbr f δ).1 (nbr f δ).2 = 1) :
    (computePerimeter g).2.countP (fun ε => decide (ε.y = f.1 ∧ ε.x = f.2)) = 0 := by
  rw [List.countP_eq_zero]
  intro ε hε
  obtain ⟨e, d, hd, hform, hre, hemp, hin, hfill⟩ := cp_edges_sound g ε hε
  subst hform
  simp only [mkEdge, decide_eq_true_eq]
  rintro ⟨hy, hx⟩
  have htgt : nbr e d = f := Prod.ext hy hx
  have hsrc : e = nbr f ((d + 3) % 6) := by
    rw [← htgt]
    exact (nbr_symm e d hd).symm
  have hc : g.cell e.1 e.2 = 1 := by
    rw [hsrc]
    exact hnb _ (by omega)
  exact hemp hc

/-- C7 witness: in the flower grid the enclosed center (3,3) contributes no
edges. -/
theorem claim_C7_witness :
    (computePerimeter wFlower).2.countP
      (fun ε => decide (ε.y = (3 : Int) ∧ ε.x = (3 : Int))) = 0 :=
  claim_C7 wFlower (3, 3) (by decide) (by decide)

/-- C8: `computePerimeter()` is deterministic and idempotent: two
consecutive calls with no mutation in between return the same count and
produce the same edge list, and the result depends only on the grid (the
stale visited set and edge list are overwritten from scratch). -/
theorem claim_C8 (t : HexGridState) :
    (computePerimeterS ((computePerimeterS t).2)).1 = (computePerimeterS t).1 ∧
    (computePerimeterS ((computePerimeterS t).2)).2.perimeterEdges =
      (computePerimeterS t).2.perimeterEdges ∧
    (∀ t' : HexGridState, t'.grid = t.grid →
      (computePerimeterS t').1 = (computePerimeterS t).1 ∧
      (computePerimeterS t').2.perimeterEdges = (computePerimeterS t).2.perimeterEdges) := by
  refine ⟨rfl, rfl, ?_⟩
  intro t' ht
  unfold computePerimeterS
  rw [ht]
  exact ⟨rfl, rfl⟩

/-- C8 witness: a stale state and a fresh state over the same grid trace
identically. -/
theorem claim_C8_witness :
    (computePerimeterS wStale).1 = (computePerimeterS wFresh).1 ∧
    (computePerimeterS wStale).2.perimeterEdges =
      (computePerimeterS wFresh).2.perimeterEdges :=
  (claim_C8 wFresh).2.2 wStale rfl

/-- C9: `computePerimeter()` never raises an error for any grid, including
grids violating the border invariant: it is a total function whose count
always equals the edge-list length, and if cell (0,0) itself is filled it
returns 0 with an empty edge list. -/
theorem claim_C9 (g : Grid) :
    (computePerimeter g).1 = (computePerimeter g).2.length ∧
    (g.cell 0 0 = 1 → computePerimeter g = (0, [])) := by
  refine ⟨cp_count_len g, ?_⟩
  intro h1
  unfold computePerimeter cpState
  rw [dfsAux_succ, if_pos (Or.inl h1)]

/-- C9 witness: the grid whose corner (0,0) is filled returns (0, []). -/
theorem claim_C9_witness : computePerimeter wOriginFilled = (0, []) :=
  (claim_C9 wOriginFilled).2 (by decide)

/-- C10 counterexample: neither `initEmptyGrid` nor the grid construction
of `loadFromInput` rejects the non-positive dimensions
width = height = 0: both return normally with the degenerate 2×2
all-border grid (every cell empty, the supplied row data never written),
and `computePerimeter` runs on it, returning 0. -/
theorem claim_C10_cex :
    (initEmptyGrid 0 0).W = 0 ∧ (initEmptyGrid 0 0).H = 0 ∧
    (initEmptyGrid 0 0).cell 0 0 = 0 ∧ (initEmptyGrid 0 0).cell 1 1 = 0 ∧
    computePerimeter (initEmptyGrid 0 0) = (0, []) ∧
    (loadFromInput 0 0 [[5]]).W = 0 ∧ (loadFromInput 0 0 [[5]]).H = 0 ∧
    (loadFromInput 0 0 [[5]]).cell 0 0 = 0 ∧ (loadFromInput 0 0 [[5]]).cell 1 1 = 0 ∧
    computePerimeter (loadFromInput 0 0 [[5]]) = (0, []) := by
  refine ⟨rfl, rfl, rfl, rfl, ?_, rfl, rfl, ?_, ?_, ?_⟩ <;> decide

/-- C10 (amended): `initEmptyGrid` and the grid construction of
`loadFromInput` perform no validation of their dimensions and never
reject: for every width and height, including zero, they return normally
with the dimensions stored; `initEmptyGrid` leaves every cell of the
allocated (H+2)×(W+2) matrix empty, and with zero width or height
`loadFromInput` writes no content cell, leaving its grid entirely
empty as well. -/
theorem claim_C10 (W H : Nat) (rows : List (List Int)) :
    (initEmptyGrid W H).W = W ∧ (initEmptyGrid W H).H = H ∧
    (∀ y x : Int, (initEmptyGrid W H).cell y x = 0) ∧
    (loadFromInput W H rows).W = W ∧ (loadFromInput W H rows).H = H ∧
    ((W = 0 ∨ H = 0) → ∀ y x : Int, (loadFromInput W H rows).cell y x = 0) := by
  refine ⟨rfl, rfl, fun _ _ => rfl, rfl, rfl, ?_⟩
  intro h y x
  simp only [loadFromInput]
  rw [if_neg (by omega)]

/-- C10 witness: the amended theorem applied at width = height = 0 with
non-trivial row data, discharging the zero-dimension hypothesis. -/
theorem claim_C10_witness :
    (loadFromInput 0 0 [[5]]).cell 1 1 = 0 ∧ (initEmptyGrid 0 0).cell 1 1 = 0 :=
  ⟨(claim_C10 0 0 [[5]]).2.2.2.2.2 (Or.inl rfl) 1 1,
    (claim_C10 0 0 [[5]]).2.2.1 1 1⟩

end HexGrid
